import Mathlib

/-!
Shallow embedding of the `to-be` Rust library (src/src/lib.rs): a pure
string-classification utility deciding whether a string is "truthy"
("truey" / "falsey") against built-in or caller-supplied term tables.

Strings are modelled as lists of Unicode scalar values (`List Char`),
matching Rust `&str` viewed as a sequence of `char`s; lexicographic
comparison on scalar values coincides with Rust's byte-wise `&str`
ordering because UTF-8 byte order agrees with code-point order.
-/

namespace ToBe

/-- A Rust `&str`, as its sequence of Unicode scalar values. -/
abbrev Str := List Char

/-- Rust `char::is_whitespace`: the Unicode `White_Space` property. -/
def rustIsWhitespace (c : Char) : Bool :=
  (0x09 ≤ c.toNat && c.toNat ≤ 0x0D) || c.toNat == 0x20 || c.toNat == 0x85 ||
  c.toNat == 0xA0 || c.toNat == 0x1680 ||
  (0x2000 ≤ c.toNat && c.toNat ≤ 0x200A) ||
  c.toNat == 0x2028 || c.toNat == 0x2029 || c.toNat == 0x202F ||
  c.toNat == 0x205F || c.toNat == 0x3000

/-- Leading-whitespace removal, as in Rust `str::trim_start`. -/
def trimStart (s : Str) : Str := s.dropWhile rustIsWhitespace

/-- Trailing-whitespace removal, as in Rust `str::trim_end`. -/
def trimEnd (s : Str) : Str := (s.reverse.dropWhile rustIsWhitespace).reverse

/-- Rust `str::trim`: strip leading and trailing Unicode whitespace. -/
def trim (s : Str) : Str := trimEnd (trimStart s)

/-- Rust `u8::to_ascii_lowercase` on a scalar value: maps `A`-`Z` to
`a`-`z`, leaves every other scalar unchanged. -/
def asciiLowerChar (c : Char) : Char :=
  if 0x41 ≤ c.toNat && c.toNat ≤ 0x5A then Char.ofNat (c.toNat + 32) else c

/-- Rust `str::to_ascii_lowercase` (ASCII case mapping only). -/
def toAsciiLowercase (s : Str) : Str := s.map asciiLowerChar

/-- Scalar-value comparison of two `char`s. -/
def charCmp (a b : Char) : Ordering := compare a.toNat b.toNat

/-- Lexicographic comparison of two strings, element by element; agrees
with Rust's `Ord for &str` (byte-wise) on all valid UTF-8 data. -/
def listCmp : Str → Str → Ordering
  | [], [] => .eq
  | [], _ :: _ => .lt
  | _ :: _, [] => .gt
  | a :: as, b :: bs =>
    match charCmp a b with
    | .eq => listCmp as bs
    | o => o

/-- Strict ascending order used by the sorted "precise" tables. -/
def strLt (a b : Str) : Prop := listCmp a b = .lt

instance (a b : Str) : Decidable (strLt a b) := by
  unfold strLt; infer_instance

/-- One step bound of Rust `slice::binary_search` (`is_ok()` view):
searches `key` in `xs` between indices `left` (inclusive) and `right`
(exclusive), comparing `xs[mid].cmp(key)`.  `fuel` only forces
termination; it is always given ≥ `right - left`. -/
def bsearchGo (xs : List Str) (key : Str) : Nat → Nat → Nat → Bool
  | 0, _, _ => false
  | fuel + 1, left, right =>
    if left < right then
      let mid := left + (right - left) / 2
      match listCmp (xs.getD mid []) key with
      | .lt => bsearchGo xs key fuel (mid + 1) right
      | .gt => bsearchGo xs key fuel left mid
      | .eq => true
    else false

/-- Rust `sorted.binary_search(&key).is_ok()`. -/
def binarySearchIsOk (xs : List Str) (key : Str) : Bool :=
  bsearchGo xs key (xs.length + 1) 0 xs.length

/-- Rust `slice::contains` (linear scan by equality). -/
def containsStr (xs : List Str) (key : Str) : Bool :=
  xs.any (fun x => x == key)

/-- `FALSEY_PRECISE_STRINGS` (sorted ascending, consumed by binary search). -/
def FALSEY_PRECISE_STRINGS : List Str :=
  [ ['0'],
    ['F', 'A', 'L', 'S', 'E'],
    ['F', 'a', 'l', 's', 'e'],
    ['N', 'O'],
    ['N', 'o'],
    ['O', 'F', 'F'],
    ['O', 'f', 'f'],
    ['f', 'a', 'l', 's', 'e'],
    ['n', 'o'],
    ['o', 'f', 'f'] ]

/-- `TRUEY_PRECISE_STRINGS` (sorted ascending, consumed by binary search). -/
def TRUEY_PRECISE_STRINGS : List Str :=
  [ ['1'],
    ['O', 'N'],
    ['O', 'n'],
    ['T', 'R', 'U', 'E'],
    ['T', 'r', 'u', 'e'],
    ['Y', 'E', 'S'],
    ['Y', 'e', 's'],
    ['o', 'n'],
    ['t', 'r', 'u', 'e'],
    ['y', 'e', 's'] ]

/-- `FALSEY_LOWERCASE_STRINGS` (most-likely order, linear scan). -/
def FALSEY_LOWERCASE_STRINGS : List Str :=
  [ ['f', 'a', 'l', 's', 'e'],
    ['n', 'o'],
    ['o', 'f', 'f'],
    ['0'] ]

/-- `TRUEY_LOWERCASE_STRINGS` (most-likely order, linear scan). -/
def TRUEY_LOWERCASE_STRINGS : List Str :=
  [ ['t', 'r', 'u', 'e'],
    ['y', 'e', 's'],
    ['o', 'n'],
    ['1'] ]

/-- The `Terms` enum: either the built-in tables, or four
caller-supplied tables (the "Custom" configuration of the spec). -/
inductive Terms where
  | Default : Terms
  | Strings
      (falsey_precise_strings : List Str)
      (falsey_lowercase_strings : List Str)
      (truey_precise_strings : List Str)
      (truey_lowercase_strings : List Str) : Terms

/-- `string_is_truthy_against_`: trim, binary-search the sorted precise
set, and on a miss linear-scan the ASCII-lowercased input against the
lowercase set. -/
def string_is_truthy_against_ (s : Str)
    (sorted_precise_strings lowercase_strings : List Str) : Bool :=
  let s := trim s
  if binarySearchIsOk sorted_precise_strings s then
    true
  else
    let l := toAsciiLowercase s
    lowercase_strings.any (fun f => f == l)

/-- `string_is_truthy_with_`: trim, run the precise tier (binary search
of the stock sorted tables for `Default`, `contains` of the
caller-supplied tables for `Strings`), then the lowercase tier (linear
scan, falsey before truey) on the ASCII-lowercased input. -/
def string_is_truthy_with_ (s : Str) (terms : Terms)
    (stock_falsey_sorted_precise_strings : List Str)
    (stock_falsey_lowercase_strings : List Str)
    (stock_truey_sorted_precise_strings : List Str)
    (stock_truey_lowercase_strings : List Str) : Option Bool :=
  let s := trim s
  let precise : Option Bool :=
    match terms with
    | .Default =>
      if binarySearchIsOk stock_falsey_sorted_precise_strings s then
        some false
      else if binarySearchIsOk stock_truey_sorted_precise_strings s then
        some true
      else
        none
    | .Strings falsey_precise_strings _ truey_precise_strings _ =>
      if containsStr falsey_precise_strings s then
        some false
      else if containsStr truey_precise_strings s then
        some true
      else
        none
  match precise with
  | some b => some b
  | none =>
    let l := toAsciiLowercase s
    let lower : List Str × List Str :=
      match terms with
      | .Default =>
        (stock_falsey_lowercase_strings, stock_truey_lowercase_strings)
      | .Strings _ falsey_lowercase_strings _ truey_lowercase_strings =>
        (falsey_lowercase_strings, truey_lowercase_strings)
    if lower.1.any (fun f => f == l) then
      some false
    else if lower.2.any (fun f => f == l) then
      some true
    else
      none

/-- `stock_term_strings`: the built-in tables wrapped in the
`Strings` (Custom-shaped) configuration. -/
def stock_term_strings : Terms :=
  .Strings FALSEY_PRECISE_STRINGS FALSEY_LOWERCASE_STRINGS
    TRUEY_PRECISE_STRINGS TRUEY_LOWERCASE_STRINGS

/-- `string_is_falsey`. -/
def string_is_falsey (s : Str) : Bool :=
  string_is_truthy_against_ s FALSEY_PRECISE_STRINGS FALSEY_LOWERCASE_STRINGS

/-- `string_is_truey`. -/
def string_is_truey (s : Str) : Bool :=
  string_is_truthy_against_ s TRUEY_PRECISE_STRINGS TRUEY_LOWERCASE_STRINGS

/-- `string_is_truthy`: `none` = unclassified, `some false` =
classified-false ("falsey"), `some true` = classified-true ("truey"). -/
def string_is_truthy (s : Str) : Option Bool :=
  string_is_truthy_with_ s .Default
    FALSEY_PRECISE_STRINGS FALSEY_LOWERCASE_STRINGS
    TRUEY_PRECISE_STRINGS TRUEY_LOWERCASE_STRINGS

/-- `string_is_truthy_with`. -/
def string_is_truthy_with (s : Str) (terms : Terms) : Option Bool :=
  string_is_truthy_with_ s terms
    FALSEY_PRECISE_STRINGS FALSEY_LOWERCASE_STRINGS
    TRUEY_PRECISE_STRINGS TRUEY_LOWERCASE_STRINGS

/-- The falsey "precise" table selected by a configuration. -/
def falseyPreciseOf : Terms → List Str
  | .Default => FALSEY_PRECISE_STRINGS
  | .Strings fps _ _ _ => fps

/-- The truey "precise" table selected by a configuration. -/
def trueyPreciseOf : Terms → List Str
  | .Default => TRUEY_PRECISE_STRINGS
  | .Strings _ _ tps _ => tps

/-- The falsey "lowercase" table selected by a configuration. -/
def falseyLowercaseOf : Terms → List Str
  | .Default => FALSEY_LOWERCASE_STRINGS
  | .Strings _ fls _ _ => fls

/-- The truey "lowercase" table selected by a configuration. -/
def trueyLowercaseOf : Terms → List Str
  | .Default => TRUEY_LOWERCASE_STRINGS
  | .Strings _ _ _ tls => tls

/-! ### Order facts about the lexicographic comparison -/

theorem charCmp_eq_iff {a b : Char} : charCmp a b = .eq ↔ a = b := by
  unfold charCmp
  rw [Nat.compare_eq_eq]
  exact ⟨fun h => Char.ext (UInt32.ext h), fun h => by rw [h]⟩

theorem charCmp_gt_iff {a b : Char} : charCmp a b = .gt ↔ charCmp b a = .lt := by
  unfold charCmp
  rw [Nat.compare_eq_gt, Nat.compare_eq_lt]

theorem charCmp_lt_trans {a b c : Char} (h1 : charCmp a b = .lt)
    (h2 : charCmp b c = .lt) : charCmp a c = .lt := by
  unfold charCmp at h1 h2 ⊢
  rw [Nat.compare_eq_lt] at h1 h2 ⊢
  omega

theorem listCmp_eq_iff : ∀ {a b : Str}, listCmp a b = .eq ↔ a = b
  | [], [] => by simp [listCmp]
  | [], _ :: _ => by simp [listCmp]
  | _ :: _, [] => by simp [listCmp]
  | a :: as, b :: bs => by
    simp only [listCmp]
    cases h : charCmp a b with
    | eq =>
      obtain rfl : a = b := charCmp_eq_iff.mp h
      simp [listCmp_eq_iff]
    | lt =>
      constructor
      · intro hc; cases hc
      · intro hc
        obtain rfl : a = b := (List.cons.injEq .. ▸ hc).1
        rw [charCmp_eq_iff.mpr rfl] at h; cases h
    | gt =>
      constructor
      · intro hc; cases hc
      · intro hc
        obtain rfl : a = b := (List.cons.injEq .. ▸ hc).1
        rw [charCmp_eq_iff.mpr rfl] at h; cases h

theorem listCmp_gt_iff : ∀ {a b : Str}, listCmp a b = .gt ↔ listCmp b a = .lt
  | [], [] => by simp [listCmp]
  | [], _ :: _ => by simp [listCmp]
  | _ :: _, [] => by simp [listCmp]
  | a :: as, b :: bs => by
    simp only [listCmp]
    cases h : charCmp a b with
    | eq =>
      obtain rfl : a = b := charCmp_eq_iff.mp h
      rw [charCmp_eq_iff.mpr rfl]
      exact listCmp_gt_iff
    | lt =>
      rw [charCmp_gt_iff.mpr h]
      exact ⟨fun hc => Ordering.noConfusion hc, fun hc => Ordering.noConfusion hc⟩
    | gt =>
      rw [charCmp_gt_iff.mp h]
      exact ⟨fun _ => rfl, fun _ => rfl⟩

theorem listCmp_lt_trans : ∀ {a b c : Str}, listCmp a b = .lt →
    listCmp b c = .lt → listCmp a c = .lt
  | [], [], _, h1, _ => by cases h1
  | _ :: _, [], _, h1, _ => by cases h1
  | [], _ :: _, [], _, h2 => by cases h2
  | _ :: _, _ :: _, [], _, h2 => by cases h2
  | [], _ :: _, _ :: _, _, _ => rfl
  | a :: as, b :: bs, c :: cs, h1, h2 => by
    simp only [listCmp] at h1 h2 ⊢
    cases hab : charCmp a b with
    | eq =>
      obtain rfl : a = b := charCmp_eq_iff.mp hab
      rw [charCmp_eq_iff.mpr rfl] at h1
      cases hbc : charCmp a c with
      | eq =>
        obtain rfl : a = c := charCmp_eq_iff.mp hbc
        rw [hbc] at h2
        exact listCmp_lt_trans h1 h2
      | lt => rfl
      | gt => rw [hbc] at h2; cases h2
    | lt =>
      cases hbc : charCmp b c with
      | eq =>
        obtain rfl : b = c := charCmp_eq_iff.mp hbc
        rw [hab]
      | lt => rw [charCmp_lt_trans hab hbc]
      | gt => rw [hbc] at h2; cases h2
    | gt => rw [hab] at h1; cases h1

theorem strLt_irrefl (a : Str) : ¬ strLt a a := by
  unfold strLt
  rw [listCmp_eq_iff.mpr rfl]
  simp

theorem strLt_ne {a b : Str} (h : strLt a b) : a ≠ b := by
  rintro rfl
  exact strLt_irrefl a h

theorem strLt_trans {a b c : Str} (h1 : strLt a b) (h2 : strLt b c) :
    strLt a c :=
  listCmp_lt_trans h1 h2

/-! ### Correctness of the binary-search membership test on sorted lists -/

theorem containsStr_iff_mem (xs : List Str) (key : Str) :
    containsStr xs key = true ↔ key ∈ xs := by
  unfold containsStr
  simp [List.any_eq_true]

theorem anyEq_iff_mem (xs : List Str) (l : Str) :
    (xs.any fun f => f == l) = true ↔ l ∈ xs := by
  simp [List.any_eq_true]

theorem key_not_mem_of_bounds (xs : List Str) (key : Str) (left right : Nat)
    (hrl : right ≤ left)
    (hlo : ∀ i, i < xs.length → i < left → strLt (xs.getD i []) key)
    (hhi : ∀ i, i < xs.length → right ≤ i → strLt key (xs.getD i [])) :
    key ∉ xs := by
  intro hmem
  obtain ⟨i, hi, hik⟩ := List.mem_iff_getElem.mp hmem
  have hd : xs.getD i [] = key := by
    rw [List.getD_eq_getElem xs [] hi, hik]
  rcases Nat.lt_or_ge i left with h | h
  · exact strLt_irrefl key (hd ▸ hlo i hi h)
  · exact strLt_irrefl key (hd ▸ hhi i hi (le_trans hrl h))

theorem bsearchGo_eq_mem (xs : List Str) (key : Str)
    (hs : List.Pairwise strLt xs) :
    ∀ (fuel left right : Nat), right ≤ xs.length → right - left ≤ fuel →
    (∀ i, i < xs.length → i < left → strLt (xs.getD i []) key) →
    (∀ i, i < xs.length → right ≤ i → strLt key (xs.getD i [])) →
    (bsearchGo xs key fuel left right = true ↔ key ∈ xs) := by
  have hpw := List.pairwise_iff_getElem.mp hs
  intro fuel
  induction fuel with
  | zero =>
    intro left right hr hf hlo hhi
    simp only [bsearchGo, Bool.false_eq_true, false_iff]
    exact key_not_mem_of_bounds xs key left right (by omega) hlo hhi
  | succ fuel ih =>
    intro left right hr hf hlo hhi
    by_cases hlr : left < right
    · have hmid1 : left ≤ left + (right - left) / 2 := Nat.le_add_right _ _
      have hmid2 : left + (right - left) / 2 < right := by
        have := Nat.div_lt_self (show 0 < right - left by omega)
          (show 1 < 2 by omega)
        omega
      have hmidlen : left + (right - left) / 2 < xs.length :=
        lt_of_lt_of_le hmid2 hr
      simp only [bsearchGo, if_pos hlr]
      cases hcmp : listCmp (xs.getD (left + (right - left) / 2) []) key with
      | eq =>
        refine ⟨fun _ => ?_, fun _ => rfl⟩
        have := listCmp_eq_iff.mp hcmp
        rw [List.getD_eq_getElem xs [] hmidlen] at this
        exact this ▸ List.getElem_mem hmidlen
      | lt =>
        refine ih (left + (right - left) / 2 + 1) right hr (by omega) ?_ hhi
        intro i hi hil
        rcases Nat.lt_or_ge i (left + (right - left) / 2) with h | h
        · refine strLt_trans ?_ hcmp
          unfold strLt
          rw [List.getD_eq_getElem xs [] hi,
            List.getD_eq_getElem xs [] hmidlen]
          exact hpw i (left + (right - left) / 2) hi hmidlen h
        · have : i = left + (right - left) / 2 := by omega
          rw [this]
          exact hcmp
      | gt =>
        refine ih left (left + (right - left) / 2)
          (le_trans (le_of_lt hmid2) hr) (by omega) hlo ?_
        intro i hi hmi
        have hkm : strLt key (xs.getD (left + (right - left) / 2) []) :=
          listCmp_gt_iff.mp hcmp
        rcases Nat.lt_or_ge (left + (right - left) / 2) i with h | h
        · refine strLt_trans hkm ?_
          unfold strLt
          rw [List.getD_eq_getElem xs [] hi,
            List.getD_eq_getElem xs [] hmidlen]
          exact hpw (left + (right - left) / 2) i hmidlen hi h
        · have : i = left + (right - left) / 2 := by omega
          rw [this]
          exact hkm
    · simp only [bsearchGo, if_neg hlr, Bool.false_eq_true, false_iff]
      exact key_not_mem_of_bounds xs key left right (by omega) hlo hhi

theorem binarySearchIsOk_iff_mem (xs : List Str)
    (hs : List.Pairwise strLt xs) (key : Str) :
    binarySearchIsOk xs key = true ↔ key ∈ xs :=
  bsearchGo_eq_mem xs key hs (xs.length + 1) 0 xs.length le_rfl (by omega)
    (fun i _ h => absurd h (Nat.not_lt_zero i))
    (fun i hi h => absurd hi (by omega))

/-- The stock falsey precise table really is sorted ascending. -/
theorem sorted_falsey_precise : List.Pairwise strLt FALSEY_PRECISE_STRINGS := by
  decide

/-- The stock truey precise table really is sorted ascending. -/
theorem sorted_truey_precise : List.Pairwise strLt TRUEY_PRECISE_STRINGS := by
  decide

theorem bool_eq_decide {b : Bool} {p : Prop} [Decidable p]
    (h : b = true ↔ p) : b = decide p := by
  by_cases hp : p
  · simp [hp, h.mpr hp]
  · cases hb : b
    · simp [hp]
    · exact absurd (h.mp hb) hp

theorem binarySearchIsOk_eq_decide (xs : List Str)
    (hs : List.Pairwise strLt xs) (key : Str) :
    binarySearchIsOk xs key = decide (key ∈ xs) :=
  bool_eq_decide (binarySearchIsOk_iff_mem xs hs key)

theorem containsStr_eq_decide (xs : List Str) (key : Str) :
    containsStr xs key = decide (key ∈ xs) :=
  bool_eq_decide (containsStr_iff_mem xs key)

theorem anyEq_eq_decide (xs : List Str) (l : Str) :
    (xs.any fun f => f == l) = decide (l ∈ xs) :=
  bool_eq_decide (anyEq_iff_mem xs l)

/-! ### Structural characterizations of the classification functions -/

/-- `string_is_truthy` is the four-way table lookup on the trimmed
input (falsey precise, truey precise, falsey lowercase, truey
lowercase, in that order). -/
theorem string_is_truthy_eq (s : Str) :
    string_is_truthy s =
      (if trim s ∈ FALSEY_PRECISE_STRINGS then some false
       else if trim s ∈ TRUEY_PRECISE_STRINGS then some true
       else if toAsciiLowercase (trim s) ∈ FALSEY_LOWERCASE_STRINGS then
         some false
       else if toAsciiLowercase (trim s) ∈ TRUEY_LOWERCASE_STRINGS then
         some true
       else none) := by
  have hf := binarySearchIsOk_eq_decide FALSEY_PRECISE_STRINGS
    sorted_falsey_precise (trim s)
  have ht := binarySearchIsOk_eq_decide TRUEY_PRECISE_STRINGS
    sorted_truey_precise (trim s)
  by_cases h1 : trim s ∈ FALSEY_PRECISE_STRINGS
  · simp [string_is_truthy, string_is_truthy_with_, hf, ht, h1]
  · by_cases h2 : trim s ∈ TRUEY_PRECISE_STRINGS
    · simp [string_is_truthy, string_is_truthy_with_, hf, ht, h1, h2]
    · by_cases h3 : toAsciiLowercase (trim s) ∈ FALSEY_LOWERCASE_STRINGS
      · simp [string_is_truthy, string_is_truthy_with_, hf, ht,
          anyEq_eq_decide, h1, h2, h3]
      · by_cases h4 : toAsciiLowercase (trim s) ∈ TRUEY_LOWERCASE_STRINGS
        · simp [string_is_truthy, string_is_truthy_with_, hf, ht,
            anyEq_eq_decide, h1, h2, h3, h4]
        · simp [string_is_truthy, string_is_truthy_with_, hf, ht,
            anyEq_eq_decide, h1, h2, h3, h4]

/-- `string_is_truthy_with` under a `Strings` (custom) configuration is
the same four-way lookup over the caller-supplied tables, with the
precise tier a linear `contains`. -/
theorem string_is_truthy_with_strings_eq (s : Str)
    (fps fls tps tls : List Str) :
    string_is_truthy_with s (.Strings fps fls tps tls) =
      (if trim s ∈ fps then some false
       else if trim s ∈ tps then some true
       else if toAsciiLowercase (trim s) ∈ fls then some false
       else if toAsciiLowercase (trim s) ∈ tls then some true
       else none) := by
  by_cases h1 : trim s ∈ fps
  · simp [string_is_truthy_with, string_is_truthy_with_,
      containsStr_eq_decide, h1]
  · by_cases h2 : trim s ∈ tps
    · simp [string_is_truthy_with, string_is_truthy_with_,
        containsStr_eq_decide, h1, h2]
    · by_cases h3 : toAsciiLowercase (trim s) ∈ fls
      · simp [string_is_truthy_with, string_is_truthy_with_,
          containsStr_eq_decide, anyEq_eq_decide, h1, h2, h3]
      · by_cases h4 : toAsciiLowercase (trim s) ∈ tls
        · simp [string_is_truthy_with, string_is_truthy_with_,
            containsStr_eq_decide, anyEq_eq_decide, h1, h2, h3, h4]
        · simp [string_is_truthy_with, string_is_truthy_with_,
            containsStr_eq_decide, anyEq_eq_decide, h1, h2, h3, h4]

/-- `string_is_truthy_with` under `Default` agrees with
`string_is_truthy`. -/
theorem string_is_truthy_with_default_eq (s : Str) :
    string_is_truthy_with s .Default = string_is_truthy s :=
  rfl

/-- Single-polarity check, characterized by table membership. -/
theorem string_is_truthy_against_iff (s : Str) (P L : List Str)
    (hP : List.Pairwise strLt P) :
    string_is_truthy_against_ s P L = true ↔
      (trim s ∈ P ∨ toAsciiLowercase (trim s) ∈ L) := by
  have hb := binarySearchIsOk_eq_decide P hP (trim s)
  by_cases h1 : trim s ∈ P
  · simp [string_is_truthy_against_, hb, h1]
  · by_cases h2 : toAsciiLowercase (trim s) ∈ L
    · simp [string_is_truthy_against_, hb, anyEq_eq_decide, h1, h2]
    · simp [string_is_truthy_against_, hb, anyEq_eq_decide, h1, h2]

theorem string_is_falsey_iff (s : Str) :
    string_is_falsey s = true ↔
      (trim s ∈ FALSEY_PRECISE_STRINGS ∨
        toAsciiLowercase (trim s) ∈ FALSEY_LOWERCASE_STRINGS) :=
  string_is_truthy_against_iff s _ _ sorted_falsey_precise

theorem string_is_truey_iff (s : Str) :
    string_is_truey s = true ↔
      (trim s ∈ TRUEY_PRECISE_STRINGS ∨
        toAsciiLowercase (trim s) ∈ TRUEY_LOWERCASE_STRINGS) :=
  string_is_truthy_against_iff s _ _ sorted_truey_precise

/-! ### Disjointness of the built-in tables -/

theorem falsey_not_truey_precise {t : Str}
    (h : t ∈ FALSEY_PRECISE_STRINGS) : t ∉ TRUEY_PRECISE_STRINGS := by
  fin_cases h <;> decide

theorem lower_of_falsey_precise {t : Str}
    (h : t ∈ FALSEY_PRECISE_STRINGS) :
    toAsciiLowercase t ∈ FALSEY_LOWERCASE_STRINGS := by
  fin_cases h <;> decide

theorem lower_of_truey_precise {t : Str}
    (h : t ∈ TRUEY_PRECISE_STRINGS) :
    toAsciiLowercase t ∈ TRUEY_LOWERCASE_STRINGS := by
  fin_cases h <;> decide

theorem falsey_precise_lower_not_truey {t : Str}
    (h : t ∈ FALSEY_PRECISE_STRINGS) :
    toAsciiLowercase t ∉ TRUEY_LOWERCASE_STRINGS := by
  fin_cases h <;> decide

theorem truey_precise_lower_not_falsey {t : Str}
    (h : t ∈ TRUEY_PRECISE_STRINGS) :
    toAsciiLowercase t ∉ FALSEY_LOWERCASE_STRINGS := by
  fin_cases h <;> decide

theorem lower_tables_disjoint {l : Str}
    (h : l ∈ FALSEY_LOWERCASE_STRINGS) : l ∉ TRUEY_LOWERCASE_STRINGS := by
  fin_cases h <;> decide

/-! ### Whitespace and trimming -/

theorem rustIsWhitespace_space : rustIsWhitespace (' ') = true := by decide

theorem dropWhile_ws_replicate_append (n : Nat) (t : Str) :
    (List.replicate n ' ' ++ t).dropWhile rustIsWhitespace =
      t.dropWhile rustIsWhitespace := by
  induction n with
  | zero => simp
  | succ n ih =>
    simp [List.replicate_succ, List.dropWhile_cons, rustIsWhitespace_space, ih]

theorem trimStart_replicate_append (n : Nat) (t : Str) :
    trimStart (List.replicate n ' ' ++ t) = trimStart t :=
  dropWhile_ws_replicate_append n t

theorem trimEnd_append_replicate (m : Nat) (t : Str) :
    trimEnd (t ++ List.replicate m ' ') = trimEnd t := by
  unfold trimEnd
  rw [List.reverse_append, List.reverse_replicate,
    dropWhile_ws_replicate_append]

/-- Surrounding a string with spaces does not change its trim. -/
theorem trim_pad (n m : Nat) (s : Str) :
    trim (List.replicate n ' ' ++ s ++ List.replicate m ' ') = trim s := by
  unfold trim
  rw [List.append_assoc, trimStart_replicate_append]
  unfold trimStart
  rw [List.dropWhile_append]
  by_cases he : (s.dropWhile rustIsWhitespace).isEmpty
  · rw [if_pos he]
    have h1 : (List.replicate m ' ').dropWhile rustIsWhitespace = ([] : Str) := by
      simpa using dropWhile_ws_replicate_append m ([] : Str)
    rw [h1, List.isEmpty_iff.mp he]
  · rw [if_neg he, trimEnd_append_replicate]

/-- `string_is_truthy` only depends on the trimmed input. -/
theorem string_is_truthy_trim_congr {s1 s2 : Str} (h : trim s1 = trim s2) :
    string_is_truthy s1 = string_is_truthy s2 := by
  rw [string_is_truthy_eq, string_is_truthy_eq, h]

/-! ### ASCII lowercasing facts -/

theorem toNat_ofNat_of_valid {n : Nat} (h : n.isValidChar) :
    (Char.ofNat n).toNat = n := by
  unfold Char.ofNat
  rw [dif_pos h]
  unfold Char.ofNatAux
  simp [Char.toNat, UInt32.toNat]

theorem ws_false_of_range {c : Char} (h1 : 0x41 ≤ c.toNat)
    (h2 : c.toNat ≤ 0x7A) : rustIsWhitespace c = false := by
  unfold rustIsWhitespace
  simp only [Bool.or_eq_false_iff, Bool.and_eq_false_iff,
    decide_eq_false_iff_not, not_le, beq_eq_false_iff_ne, ne_eq]
  omega

/-- ASCII lowercasing never creates or destroys whitespace. -/
theorem ws_asciiLowerChar (c : Char) :
    rustIsWhitespace (asciiLowerChar c) = rustIsWhitespace c := by
  unfold asciiLowerChar
  split
  case isTrue h =>
    rw [Bool.and_eq_true, decide_eq_true_eq, decide_eq_true_eq] at h
    have hv : (Char.ofNat (c.toNat + 32)).toNat = c.toNat + 32 :=
      toNat_ofNat_of_valid (Or.inl (by omega))
    rw [ws_false_of_range (c := Char.ofNat (c.toNat + 32)) (by omega) (by omega),
      ws_false_of_range h.1 (by omega)]
  case isFalse h => rfl

theorem mem_nows {V t : Str} (hV : toAsciiLowercase V = t)
    (ht : ∀ c ∈ t, rustIsWhitespace c = false) :
    ∀ c ∈ V, rustIsWhitespace c = false := by
  intro c hc
  have hm : asciiLowerChar c ∈ t :=
    hV ▸ List.mem_map_of_mem asciiLowerChar hc
  rw [← ws_asciiLowerChar c]
  exact ht _ hm

theorem dropWhile_eq_self_of_nows (l : Str)
    (h : ∀ c ∈ l, rustIsWhitespace c = false) :
    l.dropWhile rustIsWhitespace = l := by
  cases l with
  | nil => rfl
  | cons a l =>
    rw [List.dropWhile_cons]
    simp [h a (List.mem_cons_self a l)]

/-- A string with no whitespace characters trims to itself. -/
theorem trim_of_nows (l : Str) (h : ∀ c ∈ l, rustIsWhitespace c = false) :
    trim l = l := by
  unfold trim trimStart trimEnd
  rw [dropWhile_eq_self_of_nows l h,
    dropWhile_eq_self_of_nows l.reverse (fun c hc => h c (List.mem_reverse.mp hc)),
    List.reverse_reverse]

/-- Under a custom configuration the falsey precise tier is a linear
`contains`: any input that trims to a member of the falsey precise
table is classified false, sorted or not. -/
theorem truthy_with_mem_falsey_precise (fps fls tps tls : List Str)
    (s : Str) (hs : trim s = s) (hmem : s ∈ fps) :
    string_is_truthy_with s (.Strings fps fls tps tls) = some false := by
  rw [string_is_truthy_with_strings_eq, hs, if_pos hmem]

/-! ### The claims -/

/-- C1 (as stated, refuted): it is NOT the case that some Custom
configuration with an unsorted falsey precise token set (members being
trimmed tokens) and some input byte-equal to a member of that set fails
to classify as false: custom precise lookup is a linear `contains`,
not a binary search, so unsortedness never causes a false negative. -/
theorem claim_C1_counterexample :
    ¬ ∃ (fps fls tps tls : List Str) (s : Str),
        ¬ List.Pairwise strLt fps ∧ (∀ m ∈ fps, trim m = m) ∧ s ∈ fps ∧
        string_is_truthy_with s (.Strings fps fls tps tls) ≠ some false := by
  rintro ⟨fps, fls, tps, tls, s, _, htok, hmem, hne⟩
  exact hne (truthy_with_mem_falsey_precise fps fls tps tls s (htok s hmem) hmem)

/-- C1 (amended): for every Custom configuration whose falsey precise
set is unsorted (its members being trimmed tokens) and every input
byte-equal to a member of that set, `string_is_truthy_with` DOES return
classified-false: the custom precise tier uses a linear `contains`
rather than binary search, so no false negative (and no runtime
validation or error) occurs. -/
theorem claim_C1_theorem (fps fls tps tls : List Str) (s : Str)
    (_hunsorted : ¬ List.Pairwise strLt fps)
    (htok : ∀ m ∈ fps, trim m = m) (hmem : s ∈ fps) :
    string_is_truthy_with s (.Strings fps fls tps tls) = some false :=
  truthy_with_mem_falsey_precise fps fls tps tls s (htok s hmem) hmem

/-- C1 witness: a concrete unsorted falsey precise set (["no", "0"] is
in descending order) with input "0", classified false. -/
theorem claim_C1_witness :
    string_is_truthy_with (['0'])
      (.Strings [['n', 'o'], ['0']] [] [] []) = some false :=
  claim_C1_theorem [['n', 'o'], ['0']] [] [] [] (['0'])
    (by decide) (by decide) (by decide)

/-- C2: classification through `stock_term_strings()` (the built-in
tables wrapped in the Custom-shaped configuration) agrees with
`string_is_truthy` (the Default configuration) on every input. -/
theorem claim_C2_theorem (s : Str) :
    string_is_truthy_with s stock_term_strings = string_is_truthy s := by
  unfold stock_term_strings
  rw [string_is_truthy_with_strings_eq, string_is_truthy_eq]

/-- C3: every token of the built-in falsey precise table satisfies
`string_is_falsey` and classifies false under `string_is_truthy`, and
every token of the built-in truey precise table satisfies
`string_is_truey` and classifies true. -/
theorem claim_C3_theorem :
    (∀ T ∈ FALSEY_PRECISE_STRINGS,
        string_is_falsey T = true ∧ string_is_truthy T = some false) ∧
    (∀ T ∈ TRUEY_PRECISE_STRINGS,
        string_is_truey T = true ∧ string_is_truthy T = some true) := by
  decide

/-- C3 witness: the falsey token "0". -/
theorem claim_C3_witness :
    string_is_falsey (['0']) = true ∧ string_is_truthy (['0']) = some false :=
  claim_C3_theorem.1 (['0']) (by decide)

/-- C4: for every terms configuration, the falsey precise tier is
checked strictly before the truey precise tier (an input whose trim is
in both precise sets classifies false), and once the lowercase tier is
reached (both precise sets missed), the falsey lowercase set is checked
strictly before the truey lowercase set (a lowercased trim in both
lowercase sets classifies false). -/
theorem claim_C4_theorem (terms : Terms) (s : Str) :
    (trim s ∈ falseyPreciseOf terms → trim s ∈ trueyPreciseOf terms →
      string_is_truthy_with s terms = some false) ∧
    (trim s ∉ falseyPreciseOf terms → trim s ∉ trueyPreciseOf terms →
      toAsciiLowercase (trim s) ∈ falseyLowercaseOf terms →
      toAsciiLowercase (trim s) ∈ trueyLowercaseOf terms →
      string_is_truthy_with s terms = some false) := by
  cases terms with
  | Default =>
    refine ⟨fun h1 _ => ?_, fun h1 h2 h3 _ => ?_⟩
    · rw [string_is_truthy_with_default_eq, string_is_truthy_eq,
        if_pos (show trim s ∈ FALSEY_PRECISE_STRINGS from h1)]
    · rw [string_is_truthy_with_default_eq, string_is_truthy_eq,
        if_neg (show trim s ∉ FALSEY_PRECISE_STRINGS from h1),
        if_neg (show trim s ∉ TRUEY_PRECISE_STRINGS from h2),
        if_pos
          (show toAsciiLowercase (trim s) ∈ FALSEY_LOWERCASE_STRINGS from h3)]
  | Strings fps fls tps tls =>
    refine ⟨fun h1 _ => ?_, fun h1 h2 h3 _ => ?_⟩
    · rw [string_is_truthy_with_strings_eq,
        if_pos (show trim s ∈ fps from h1)]
    · rw [string_is_truthy_with_strings_eq,
        if_neg (show trim s ∉ fps from h1),
        if_neg (show trim s ∉ tps from h2),
        if_pos (show toAsciiLowercase (trim s) ∈ fls from h3)]

/-- C4 witness: "x" in both custom precise sets classifies false; "X"
(precise tiers missed) with "x" in both custom lowercase sets
classifies false. -/
theorem claim_C4_witness :
    string_is_truthy_with (['x'])
      (.Strings [['x']] [] [['x']] []) = some false ∧
    string_is_truthy_with (['X'])
      (.Strings [] [['x']] [] [['x']]) = some false :=
  ⟨(claim_C4_theorem (.Strings [['x']] [] [['x']] []) (['x'])).1
      (by decide) (by decide),
   (claim_C4_theorem (.Strings [] [['x']] [] [['x']]) (['X'])).2
      (by decide) (by decide) (by decide) (by decide)⟩

/-- C5: under a Custom configuration with truey tokens {"Da", "Yup"}
and falsey tokens {"Nyet", "Nope"} (plus lowercase variants), "Da"
classifies true and the built-in token "true" is unclassified. -/
theorem claim_C5_theorem :
    string_is_truthy_with (['D', 'a'])
      (.Strings [['N', 'y', 'e', 't'], ['N', 'o', 'p', 'e']]
        [['n', 'y', 'e', 't'], ['n', 'o', 'p', 'e']]
        [['D', 'a'], ['Y', 'u', 'p']]
        [['d', 'a'], ['y', 'u', 'p']]) = some true ∧
    string_is_truthy_with (['t', 'r', 'u', 'e'])
      (.Strings [['N', 'y', 'e', 't'], ['N', 'o', 'p', 'e']]
        [['n', 'y', 'e', 't'], ['n', 'o', 'p', 'e']]
        [['D', 'a'], ['Y', 'u', 'p']]
        [['d', 'a'], ['y', 'u', 'p']]) = none := by
  decide

/-- C6: adding any number of leading and trailing spaces to a
classified token does not change its classification: the tables are
only consulted after trimming. -/
theorem claim_C6_theorem (T : Str) (n m : Nat)
    (_hT : string_is_truthy T ≠ none) :
    string_is_truthy (List.replicate n ' ' ++ T ++ List.replicate m ' ') =
      string_is_truthy T :=
  string_is_truthy_trim_congr (trim_pad n m T)

/-- C6 witness: "on" with two leading and three trailing spaces. -/
theorem claim_C6_witness :
    string_is_truthy
        (List.replicate 2 ' ' ++ ['o', 'n'] ++ List.replicate 3 ' ') =
      string_is_truthy (['o', 'n']) :=
  claim_C6_theorem (['o', 'n']) 2 3 (by decide)

/-- C7: every ASCII casing variant V of a token t of a built-in
lowercase table (i.e. V ASCII-lowercases to t) classifies exactly as t
does; the lowercasing is ASCII-only by construction of
`asciiLowerChar`. -/
theorem claim_C7_theorem (V t : Str)
    (ht : t ∈ FALSEY_LOWERCASE_STRINGS ∨ t ∈ TRUEY_LOWERCASE_STRINGS)
    (hV : toAsciiLowercase V = t) :
    string_is_truthy V = string_is_truthy t := by
  have htws : ∀ c ∈ t, rustIsWhitespace c = false := by
    rcases ht with h | h <;> fin_cases h <;> decide
  have hVws := mem_nows hV htws
  have htrV : trim V = V := trim_of_nows V hVws
  rw [string_is_truthy_eq V, htrV, hV]
  rcases ht with h | h
  · have hTP : V ∉ TRUEY_PRECISE_STRINGS := by
      intro hmem
      have hl := lower_of_truey_precise hmem
      rw [hV] at hl
      exact lower_tables_disjoint h hl
    by_cases hFP : V ∈ FALSEY_PRECISE_STRINGS
    · rw [if_pos hFP]
      fin_cases h <;> decide
    · rw [if_neg hFP, if_neg hTP, if_pos h]
      fin_cases h <;> decide
  · have hFP : V ∉ FALSEY_PRECISE_STRINGS := by
      intro hmem
      have hl := lower_of_falsey_precise hmem
      rw [hV] at hl
      exact lower_tables_disjoint hl h
    by_cases hTP : V ∈ TRUEY_PRECISE_STRINGS
    · rw [if_neg hFP, if_pos hTP]
      fin_cases h <;> decide
    · have hFL : t ∉ FALSEY_LOWERCASE_STRINGS :=
        fun hc => lower_tables_disjoint hc h
      rw [if_neg hFP, if_neg hTP, if_neg hFL, if_pos h]
      fin_cases h <;> decide

/-- C7 witness: "tRuE" classifies exactly as "true". -/
theorem claim_C7_witness :
    string_is_truthy (['t', 'R', 'u', 'E']) =
      string_is_truthy (['t', 'r', 'u', 'e']) :=
  claim_C7_theorem (['t', 'R', 'u', 'E']) (['t', 'r', 'u', 'e'])
    (by decide) (by decide)

/-- C8: every classification function is total and returns a sentinel:
the result of `string_is_truthy` is always one of the three states, the
empty string is false under both single-polarity checks and
unclassified under the dual check, and "Nyet" and "yup" are
unclassified. -/
theorem claim_C8_theorem :
    (∀ s : Str, string_is_truthy s = none ∨
        string_is_truthy s = some false ∨ string_is_truthy s = some true) ∧
    string_is_falsey [] = false ∧ string_is_truey [] = false ∧
    string_is_truthy [] = none ∧
    string_is_truthy (['N', 'y', 'e', 't']) = none ∧
    string_is_truthy (['y', 'u', 'p']) = none := by
  refine ⟨fun s => ?_, by decide, by decide, by decide, by decide, by decide⟩
  cases string_is_truthy s with
  | none => exact Or.inl rfl
  | some b =>
    cases b with
    | false => exact Or.inr (Or.inl rfl)
    | true => exact Or.inr (Or.inr rfl)

/-- C9: `string_is_falsey` and `string_is_truey` are not complements:
both return false on the empty string, so no law
`is_falsey(x) = !is_truey(x)` holds. -/
theorem claim_C9_theorem :
    string_is_falsey [] = false ∧ string_is_truey [] = false ∧
    ¬ ∀ x : Str, string_is_falsey x = !string_is_truey x :=
  ⟨by decide, by decide, fun h => absurd (h []) (by decide)⟩

/-- C10: with the built-in tables the dual-polarity and single-polarity
operations agree on every input: `string_is_truthy` classifies false
exactly when `string_is_falsey` holds and true exactly when
`string_is_truey` holds. -/
theorem claim_C10_theorem (s : Str) :
    (string_is_truthy s = some false ↔ string_is_falsey s = true) ∧
    (string_is_truthy s = some true ↔ string_is_truey s = true) := by
  have hfa := string_is_falsey_iff s
  have htr := string_is_truey_iff s
  rw [string_is_truthy_eq]
  by_cases h1 : trim s ∈ FALSEY_PRECISE_STRINGS
  · have h2 : trim s ∉ TRUEY_PRECISE_STRINGS := falsey_not_truey_precise h1
    have h3 : toAsciiLowercase (trim s) ∉ TRUEY_LOWERCASE_STRINGS :=
      falsey_precise_lower_not_truey h1
    simp [h1, h2, h3, hfa, htr]
  · by_cases h2 : trim s ∈ TRUEY_PRECISE_STRINGS
    · have h3 : toAsciiLowercase (trim s) ∉ FALSEY_LOWERCASE_STRINGS :=
        truey_precise_lower_not_falsey h2
      simp [h1, h2, h3, hfa, htr]
    · by_cases h3 : toAsciiLowercase (trim s) ∈ FALSEY_LOWERCASE_STRINGS
      · have h4 : toAsciiLowercase (trim s) ∉ TRUEY_LOWERCASE_STRINGS :=
          lower_tables_disjoint h3
        simp [h1, h2, h3, h4, hfa, htr]
      · by_cases h4 : toAsciiLowercase (trim s) ∈ TRUEY_LOWERCASE_STRINGS
        · simp [h1, h2, h3, h4, hfa, htr]
        · simp [h1, h2, h3, h4, hfa, htr]

end ToBe
